import Mathlib

/-!
Verification of the batch-ingestion scheduler (`src/ingestion/`): the priority
queue ordering, the rate limiter of the dispatch loop, batch splitting, batch
status transitions, input validation, and the status-aggregation rule.

Conventions of the embedding:
* Python floats used as wall-clock timestamps are modelled as rationals `ℚ`.
* Django `TextChoices` string enums are modelled as inductive types whose
  constructor names follow the code (`BatchStatus.YET_TO_START = 'yet_to_start'`
  is `BatchStatus.yet_to_start`; the design document calls this initial state
  `pending`).
* `heapq` is the Python standard library, external to this repository; it is
  modelled by its contract: `heappush` adds an element, `heappop` removes and
  returns a minimal element with respect to `QueueItem.__lt__`.
* Django ORM persistence is modelled as explicit lists of rows in a state
  record, mutated by pure state-passing functions.
-/

/-- Batch status domain, from `src/ingestion/models.py` `class BatchStatus`:
`YET_TO_START = 'yet_to_start'`, `TRIGGERED = 'triggered'`,
`COMPLETED = 'completed'`.  The spec names the first state `pending`. -/
inductive BatchStatus where
  | yet_to_start
  | triggered
  | completed
deriving DecidableEq, Repr

/-- In-memory scheduling record, from `src/ingestion/tasks.py` `class QueueItem`
(fields `priority_value`, `created_time`, `batch_id`, `ids`, `ingestion_id`). -/
structure QueueItem where
  priority_value : ℕ
  created_time : ℚ
  batch_id : String
  ids : List ℤ
  ingestion_id : String
deriving DecidableEq, Repr

/-- `QueueItem.__lt__` from `src/ingestion/tasks.py`: compare `priority_value`
first (lower = more urgent), then `created_time` (earlier wins). -/
def QueueItem.ltb (a b : QueueItem) : Bool :=
  if a.priority_value ≠ b.priority_value then
    decide (a.priority_value < b.priority_value)
  else
    decide (a.created_time < b.created_time)

/-- The (non-strict) total order on queue items induced by `QueueItem.__lt__`:
lexicographic on (priority rank ascending, submission timestamp ascending). -/
def keyLE (a b : QueueItem) : Prop :=
  a.priority_value < b.priority_value ∨
    (a.priority_value = b.priority_value ∧ a.created_time ≤ b.created_time)

instance (a b : QueueItem) : Decidable (keyLE a b) := by
  unfold keyLE; infer_instance

/-- `BatchProcessor.get_priority_value` from `src/ingestion/tasks.py`:
`{HIGH: 1, MEDIUM: 2, LOW: 3}.get(priority, 3)` where the `Priority` text
choices have values `'HIGH'`, `'MEDIUM'`, `'LOW'`. -/
def get_priority_value (priority : String) : ℕ :=
  if priority = "HIGH" then 1
  else if priority = "MEDIUM" then 2
  else if priority = "LOW" then 3
  else 3

/-- One step of the `heappop` contract: select from a non-empty collection a
minimal element under `QueueItem.__lt__` and return it with the remainder. -/
def selectMin : QueueItem → List QueueItem → QueueItem × List QueueItem
  | x, [] => (x, [])
  | x, y :: ys =>
    if QueueItem.ltb y x then
      ((selectMin y ys).1, x :: (selectMin y ys).2)
    else
      ((selectMin x ys).1, y :: (selectMin x ys).2)

/-- Repeatedly `heappop` until the queue is empty, with explicit fuel. -/
def drainFuel : ℕ → List QueueItem → List QueueItem
  | 0, _ => []
  | _ + 1, [] => []
  | n + 1, x :: xs => (selectMin x xs).1 :: drainFuel n (selectMin x xs).2

/-- The sequence of `pop_min()` results obtained by draining the priority
queue holding the given items. -/
def drain (l : List QueueItem) : List QueueItem :=
  drainFuel l.length l

/-- `self.rate_limit_seconds = 5` from `BatchProcessor.__init__` in
`src/ingestion/tasks.py`. -/
def rate_limit_seconds : ℚ := 5

/-- The wait computed by `BatchProcessor._process_queue`:
`wait_time = rate_limit_seconds - time_since_last_process` when
`time_since_last_process < rate_limit_seconds`, else `0`. -/
def wait_time (last_processed_time current_time : ℚ) : ℚ :=
  if current_time - last_processed_time < rate_limit_seconds then
    rate_limit_seconds - (current_time - last_processed_time)
  else 0

/-- Wall-clock observations of one iteration of `_process_queue` that ends in
a dispatch: `tCheck` is the `time.time()` read at the rate-limit check and
`tDispatch` is the `time.time()` stored into `last_processed_time` when the
item is popped. -/
structure LoopIter where
  tCheck : ℚ
  tDispatch : ℚ
deriving DecidableEq, Repr

/-- Real-time semantics of one dispatching iteration of `_process_queue`
starting with `last` as `last_processed_time`: the clock is monotone
(`last ≤ tCheck`), and `time.sleep(wait_time)` suspends for at least the
computed wait, so the pop happens no earlier than `tCheck + wait_time`. -/
def IterOk (last : ℚ) (it : LoopIter) : Prop :=
  last ≤ it.tCheck ∧ it.tCheck + wait_time last it.tCheck ≤ it.tDispatch

/-- A run of the dispatch loop: each iteration starts from the
`last_processed_time` recorded by the previous iteration's dispatch. -/
def RunOk : ℚ → List LoopIter → Prop
  | _, [] => True
  | last, it :: rest => IterOk last it ∧ RunOk it.tDispatch rest

/-- Every pair of consecutive entries is at least `rate_limit_seconds`
apart. -/
def GapsOk : List ℚ → Prop
  | [] => True
  | [_] => True
  | a :: b :: rest => a + rate_limit_seconds ≤ b ∧ GapsOk (b :: rest)

/-- The batch splitter of `BatchProcessor.add_batches` in
`src/ingestion/tasks.py`: `for i in range(0, len(ids), batch_size)` with
`batch_size = 3`, slicing `ids[i:i + batch_size]`, written with explicit
fuel. -/
def chunk3Fuel : ℕ → List ℤ → List (List ℤ)
  | 0, _ => []
  | _ + 1, [] => []
  | n + 1, x :: xs => ((x :: xs).take 3) :: chunk3Fuel n ((x :: xs).drop 3)

/-- The list of ID slices `ids[i:i+3]` for `i = 0, 3, 6, ...` produced by
`add_batches`. -/
def chunk3 (l : List ℤ) : List (List ℤ) :=
  chunk3Fuel l.length l

/-- A persisted `Batch` row, from `src/ingestion/models.py` `class Batch`
(fields `batch_id`, `ingestion_request` foreign key, `ids`, `status`). -/
structure BatchRow where
  batch_id : String
  ingestion_id : String
  ids : List ℤ
  status : BatchStatus
deriving DecidableEq, Repr

/-- The inline aggregate-status computation of the `get_status` view in
`src/ingestion/views.py`: empty batch set → `'yet_to_start'`; all statuses
`'completed'` → `'completed'`; else any `'triggered'` → `'triggered'`; else
`'yet_to_start'`. -/
def get_status_agg (statuses : List BatchStatus) : String :=
  if statuses.isEmpty then "yet_to_start"
  else if statuses.all (fun s => s = BatchStatus.completed) then "completed"
  else if statuses.any (fun s => s = BatchStatus.triggered) then "triggered"
  else "yet_to_start"

/-- The response body computed by the `get_status` view for a submission
whose batch rows are `batches`: the aggregate status together with the
serialized batch list. -/
def get_status_view (batches : List BatchRow) : String × List BatchRow :=
  (get_status_agg (batches.map BatchRow.status), batches)

/-- The `IngestionRequest.status` property from `src/ingestion/models.py`:
`if not batches.exists(): 'yet_to_start'`; `all(status == COMPLETED)` →
`'completed'`; `elif any(status == TRIGGERED)` → `'triggered'`; else
`'yet_to_start'`. -/
def ingestion_request_status (statuses : List BatchStatus) : String :=
  if statuses.isEmpty then "yet_to_start"
  else if statuses.all (fun s => s = BatchStatus.completed) then "completed"
  else if statuses.any (fun s => s = BatchStatus.triggered) then "triggered"
  else "yet_to_start"

/-- The per-identifier simulated work loop of `BatchProcessor._process_batch`
(`for id_val in queue_item.ids: ... processed_data.append(...)`), with a
failure oracle: `failAt = some i` makes the simulated external call for the
i-th identifier raise (the spec's `ProcessingFailure`), `none` means no
failure. -/
def simulate_ids : List ℤ → Option ℕ → Except Unit (List (ℤ × String))
  | [], _ => .ok []
  | _ :: _, some 0 => .error ()
  | x :: xs, f =>
    match simulate_ids xs (f.map (· - 1)) with
    | .ok rest => .ok ((x, "processed") :: rest)
    | .error e => .error e

/-- The sequence of status values `BatchProcessor._process_batch` writes to
the batch row, in order: it first saves `TRIGGERED`, runs the simulated work,
and saves `COMPLETED` — on success in the `try` body, on failure in the
`except` handler ("Update batch status to completed even on error"). -/
def process_batch_writes (ids : List ℤ) (failAt : Option ℕ) :
    List BatchStatus :=
  BatchStatus.triggered ::
    (match simulate_ids ids failAt with
     | .ok _ => [BatchStatus.completed]
     | .error _ => [BatchStatus.completed])

/-- The dispatch loop `_process_queue` together with the processing tasks it
spawns: the loop pops items until the queue is empty and fires one
`_process_batch` thread per item without waiting on it, so the dispatched
sequence is `drain queue` whatever each task's failure oracle says; paired
with each item is the status-write trace of its processing task. -/
def run_loop (queue : List QueueItem) (failOracle : String → Option ℕ) :
    List (QueueItem × List BatchStatus) :=
  (drain queue).map
    (fun it => (it, process_batch_writes it.ids (failOracle it.batch_id)))

/-- A persisted `IngestionRequest` row, from `src/ingestion/models.py`. -/
structure IngestionRequestRow where
  ingestion_id : String
  priority : String
deriving DecidableEq, Repr

/-- The durable store plus the in-memory priority queue: `IngestionRequest`
rows, `Batch` rows, and `BatchProcessor.queue`. -/
structure SysState where
  db_requests : List IngestionRequestRow
  db_batches : List BatchRow
  queue : List QueueItem
deriving DecidableEq, Repr

/-- `IntegerField(min_value=1, max_value=10**9+7)` from
`src/ingestion/serializers.py`. -/
def ids_in_range (i : ℤ) : Bool :=
  decide (1 ≤ i ∧ i ≤ 10 ^ 9 + 7)

/-- `ids = serializers.ListField(child=IntegerField(...), min_length=1,
max_length=1000)` plus `validate_ids` from `src/ingestion/serializers.py`. -/
def valid_ids (ids : List ℤ) : Bool :=
  decide (1 ≤ ids.length ∧ ids.length ≤ 1000) && ids.all ids_in_range

/-- `priority = serializers.ChoiceField(choices=Priority.choices)`: the value
must be one of `'HIGH'`, `'MEDIUM'`, `'LOW'`. -/
def valid_priority (p : String) : Bool :=
  decide (p = "HIGH" ∨ p = "MEDIUM" ∨ p = "LOW")

/-- `IngestionRequestSerializer.is_valid()` for a payload `{ids, priority}`. -/
def serializer_is_valid (ids : List ℤ) (priority : String) : Bool :=
  valid_ids ids && valid_priority priority

/-- The two side effects `BatchProcessor.add_batches` performs per slice of 3
identifiers, in program order: `Batch.objects.create(...)` then
`heapq.heappush(self.queue, queue_item)`. -/
inductive SchedulerEvent where
  | createBatch (b : BatchRow)
  | pushItem (q : QueueItem)
deriving DecidableEq, Repr

/-- The pair of events one loop iteration of `add_batches` emits for the
chunk `p.2` with batch id `bids p.1` (the database-generated UUID of the
`p.1`-th created batch): the batch row is created with status
`'yet_to_start'`, then the queue item is pushed. -/
def batch_block (bids : ℕ → String) (iid : String) (pv : ℕ) (t : ℚ)
    (p : ℕ × List ℤ) : List SchedulerEvent :=
  [SchedulerEvent.createBatch ⟨bids p.1, iid, p.2, BatchStatus.yet_to_start⟩,
   SchedulerEvent.pushItem ⟨pv, t, bids p.1, p.2, iid⟩]

/-- The full event trace of `BatchProcessor.add_batches(ingestion_id, ids,
priority, created_time)`: for each chunk of 3, create the batch row, then
push its queue item. -/
def add_batches_events (bids : ℕ → String) (iid : String) (ids : List ℤ)
    (priority : String) (t : ℚ) : List SchedulerEvent :=
  (chunk3 ids).enum.flatMap
    (batch_block bids iid (get_priority_value priority) t)

/-- Effect of one `add_batches` event on the store and the queue. -/
def apply_event (s : SysState) : SchedulerEvent → SysState
  | SchedulerEvent.createBatch b => { s with db_batches := s.db_batches ++ [b] }
  | SchedulerEvent.pushItem q => { s with queue := s.queue ++ [q] }

/-- `BatchProcessor.add_batches` as a state transformer. -/
def add_batches (s : SysState) (bids : ℕ → String) (iid : String)
    (ids : List ℤ) (priority : String) (t : ℚ) : SysState :=
  (add_batches_events bids iid ids priority t).foldl apply_event s

/-- Outcome of the `ingest` view: HTTP 201 with the new id, or HTTP 400. -/
inductive IngestResult where
  | created (ingestion_id : String)
  | badRequest
deriving DecidableEq, Repr

/-- The `ingest` view from `src/ingestion/views.py`: if the serializer is not
valid, return 400 before touching the store; otherwise create the
`IngestionRequest` row and call `batch_processor.add_batches`.  `newReqId` is
the database-generated UUID of the request and `bids` those of the batches. -/
def ingest (s : SysState) (newReqId : String) (bids : ℕ → String)
    (ids : List ℤ) (priority : String) (t : ℚ) : IngestResult × SysState :=
  if !(serializer_is_valid ids priority) then
    (IngestResult.badRequest, s)
  else
    let s1 := { s with db_requests := s.db_requests ++ [⟨newReqId, priority⟩] }
    (IngestResult.created newReqId, add_batches s1 bids newReqId ids priority t)

/-- Lifecycle of `BatchProcessor.worker_thread`: `running` while inside the
`while True` loop, `exiting` after the loop breaks but before the thread
terminates (`is_alive()` still true), `dead` once terminated or never
started (`worker_thread is None`). -/
inductive WorkerPhase where
  | running
  | exiting
  | dead
deriving DecidableEq, Repr

/-- The shared scheduler state of `BatchProcessor` relevant to the start/stop
handoff: the queue, the `processing` flag, and the worker thread phase. -/
structure SchedState where
  queue : List QueueItem
  processing : Bool
  worker : WorkerPhase
deriving DecidableEq, Repr

/-- The atomic actions interleaved on the scheduler state: the loop's
exit-on-empty check, the worker thread terminating, a producer's push (with
its trailing `start_processing` call), and the loop popping an item. -/
inductive SchedAct where
  | exitEmpty
  | die
  | push (q : QueueItem)
  | popDispatch
deriving DecidableEq, Repr

/-- `BatchProcessor.start_processing`: only when the worker thread is `None`
or not alive does it set `processing = True` and start a new thread;
otherwise it does nothing. -/
def start_processing (s : SchedState) : SchedState :=
  if s.worker = WorkerPhase.dead then
    { s with processing := true, worker := WorkerPhase.running }
  else s

/-- Small-step semantics of the start/stop handoff in `tasks.py`, one atomic
action at a time (`none` = the action is not enabled):
* `exitEmpty`: under the lock, the loop sees an empty queue, sets
  `processing = False` and breaks;
* `die`: the broken-out worker thread terminates;
* `push q`: under the lock, a producer heap-pushes `q` and, if `processing`
  is false, calls `start_processing` (which checks `is_alive()`);
* `popDispatch`: under the lock, the running loop pops the minimum item. -/
def sched_step (a : SchedAct) (s : SchedState) : Option SchedState :=
  match a with
  | SchedAct.exitEmpty =>
    if s.worker = WorkerPhase.running ∧ s.queue = [] then
      some { s with processing := false, worker := WorkerPhase.exiting }
    else none
  | SchedAct.die =>
    if s.worker = WorkerPhase.exiting then
      some { s with worker := WorkerPhase.dead }
    else none
  | SchedAct.push q =>
    let s1 := { s with queue := s.queue ++ [q] }
    some (if !s1.processing then start_processing s1 else s1)
  | SchedAct.popDispatch =>
    match s.queue with
    | [] => none
    | x :: xs =>
      if s.worker = WorkerPhase.running then
        some { s with queue := (selectMin x xs).2 }
      else none

/-- The queue item a producer pushes in the racy interleaving of C9. -/
def stuckItem : QueueItem :=
  ⟨2, 0, "b1", [1], "r1"⟩

theorem ltb_iff {a b : QueueItem} :
    QueueItem.ltb a b = true ↔
      a.priority_value < b.priority_value ∨
        (a.priority_value = b.priority_value ∧
          a.created_time < b.created_time) := by
  unfold QueueItem.ltb
  by_cases h : a.priority_value = b.priority_value
  · simp [h]
  · rw [if_pos h]
    simp only [decide_eq_true_eq]
    constructor
    · exact fun hl => Or.inl hl
    · rintro (hl | ⟨e, _⟩)
      · exact hl
      · exact absurd e h

theorem ltb_irrefl (a : QueueItem) : a.ltb a = false := by
  simp [QueueItem.ltb]

theorem not_ltb_iff {a b : QueueItem} :
    ¬ (QueueItem.ltb a b = true) ↔ keyLE b a := by
  rw [ltb_iff]
  unfold keyLE
  constructor
  · intro h
    push_neg at h
    obtain ⟨h1, h2⟩ := h
    rcases Nat.lt_or_ge b.priority_value a.priority_value with hlt | hge
    · exact Or.inl hlt
    · have he : a.priority_value = b.priority_value :=
        Nat.le_antisymm hge h1
      exact Or.inr ⟨he.symm, h2 he⟩
  · rintro (h | ⟨e, t⟩) hcon
    · rcases hcon with h2 | ⟨e2, _⟩
      · omega
      · omega
    · rcases hcon with h2 | ⟨_, t2⟩
      · omega
      · exact absurd t2 (not_lt.mpr t)

theorem ltb_trans {a b c : QueueItem} (hab : QueueItem.ltb a b = true)
    (hbc : QueueItem.ltb b c = true) : QueueItem.ltb a c = true := by
  rw [ltb_iff] at *
  rcases hab with h | ⟨e, t⟩ <;> rcases hbc with h2 | ⟨e2, t2⟩
  · exact Or.inl (h.trans h2)
  · exact Or.inl (by rw [← e2]; exact h)
  · exact Or.inl (by rw [e]; exact h2)
  · exact Or.inr ⟨e.trans e2, t.trans t2⟩

theorem keyLE_trans {a b c : QueueItem} (hab : keyLE a b) (hbc : keyLE b c) :
    keyLE a c := by
  unfold keyLE at *
  rcases hab with h | ⟨e1, t1⟩ <;> rcases hbc with h2 | ⟨e2, t2⟩
  · exact Or.inl (h.trans h2)
  · exact Or.inl (by rw [← e2]; exact h)
  · exact Or.inl (by rw [e1]; exact h2)
  · exact Or.inr ⟨e1.trans e2, t1.trans t2⟩

theorem keyLE_of_not_ltb {a b : QueueItem} (h : ¬ (QueueItem.ltb a b = true)) :
    keyLE b a := not_ltb_iff.mp h

theorem selectMin_perm (x : QueueItem) (xs : List QueueItem) :
    List.Perm ((selectMin x xs).1 :: (selectMin x xs).2) (x :: xs) := by
  induction xs generalizing x with
  | nil => simp [selectMin]
  | cons y ys ih =>
    by_cases h : QueueItem.ltb y x = true
    · simp only [selectMin, if_pos h]
      exact (List.Perm.swap x _ _).trans ((ih y).cons x)
    · simp only [selectMin, if_neg h]
      exact ((List.Perm.swap y _ _).trans ((ih x).cons y)).trans
        (List.Perm.swap x y ys)

theorem selectMin_first_le (x : QueueItem) (xs : List QueueItem) :
    keyLE (selectMin x xs).1 x := by
  induction xs generalizing x with
  | nil =>
    simp only [selectMin]
    exact Or.inr ⟨rfl, le_refl _⟩
  | cons y ys ih =>
    by_cases h : QueueItem.ltb y x = true
    · simp only [selectMin, if_pos h]
      refine keyLE_trans (ih y) ?_
      rw [← not_ltb_iff]
      intro hxy
      have := ltb_trans hxy h
      simp [ltb_irrefl] at this
    · simp only [selectMin, if_neg h]
      exact ih x

theorem selectMin_rest_ge (x : QueueItem) (xs : List QueueItem) :
    ∀ z ∈ (selectMin x xs).2, keyLE (selectMin x xs).1 z := by
  induction xs generalizing x with
  | nil => simp [selectMin]
  | cons y ys ih =>
    by_cases h : QueueItem.ltb y x = true
    · simp only [selectMin, if_pos h, List.mem_cons]
      rintro z (rfl | hz)
      · refine keyLE_trans (selectMin_first_le y ys) ?_
        rw [← not_ltb_iff]
        intro hxy
        have := ltb_trans hxy h
        simp [ltb_irrefl] at this
      · exact ih y z hz
    · simp only [selectMin, if_neg h, List.mem_cons]
      rintro z (rfl | hz)
      · exact keyLE_trans (selectMin_first_le x ys) (keyLE_of_not_ltb h)
      · exact ih x z hz

theorem selectMin_rest_length (x : QueueItem) (xs : List QueueItem) :
    (selectMin x xs).2.length = xs.length := by
  induction xs generalizing x with
  | nil => simp [selectMin]
  | cons y ys ih =>
    by_cases h : QueueItem.ltb y x = true <;>
      simp [selectMin, h, ih]

theorem drainFuel_perm : ∀ (n : ℕ) (l : List QueueItem), l.length ≤ n →
    List.Perm (drainFuel n l) l := by
  intro n
  induction n with
  | zero =>
    intro l hl
    rw [Nat.le_zero, List.length_eq_zero] at hl
    subst hl; simp [drainFuel]
  | succ n ih =>
    intro l hl
    match l with
    | [] => simp [drainFuel]
    | x :: xs =>
      simp only [drainFuel]
      have hlen : (selectMin x xs).2.length ≤ n := by
        rw [selectMin_rest_length]
        simpa using hl
      exact ((ih _ hlen).cons _).trans (selectMin_perm x xs)

theorem drain_perm (l : List QueueItem) : List.Perm (drain l) l :=
  drainFuel_perm l.length l (le_refl _)

theorem drainFuel_sorted : ∀ (n : ℕ) (l : List QueueItem), l.length ≤ n →
    (drainFuel n l).Pairwise keyLE := by
  intro n
  induction n with
  | zero => intro l _; simp [drainFuel]
  | succ n ih =>
    intro l hl
    match l with
    | [] => simp [drainFuel]
    | x :: xs =>
      simp only [drainFuel]
      have hlen : (selectMin x xs).2.length ≤ n := by
        rw [selectMin_rest_length]
        simpa using hl
      refine List.Pairwise.cons ?_ (ih _ hlen)
      intro z hz
      have hz2 : z ∈ (selectMin x xs).2 :=
        (drainFuel_perm n _ hlen).mem_iff.mp hz
      exact selectMin_rest_ge x xs z hz2

theorem drain_sorted (l : List QueueItem) : (drain l).Pairwise keyLE :=
  drainFuel_sorted l.length l (le_refl _)

/-- C1: for any multiset of pushed queue items, the sequence of `pop_min()`
results is a permutation of the pushes, totally ordered by the key
(numeric priority rank ascending, then submission timestamp ascending);
hence priority ranks are non-decreasing across pops, within one rank
timestamps are non-decreasing, and the three priority classes map to
ranks HIGH = 1 < MEDIUM = 2 < LOW = 3, so every HIGH item is returned
before any MEDIUM item and every MEDIUM before any LOW. -/
theorem pop_min_total_order (l : List QueueItem) :
    List.Perm (drain l) l ∧
    (drain l).Pairwise keyLE ∧
    (drain l).Pairwise (fun a b => a.priority_value ≤ b.priority_value) ∧
    (drain l).Pairwise
      (fun a b => a.priority_value = b.priority_value →
        a.created_time ≤ b.created_time) ∧
    get_priority_value "HIGH" < get_priority_value "MEDIUM" ∧
    get_priority_value "MEDIUM" < get_priority_value "LOW" := by
  refine ⟨drain_perm l, drain_sorted l, ?_, ?_, by simp [get_priority_value],
    by simp [get_priority_value]⟩
  · exact (drain_sorted l).imp (fun h => by
      rcases h with h | ⟨e, _⟩
      · exact Nat.le_of_lt h
      · exact Nat.le_of_eq e)
  · exact (drain_sorted l).imp (fun h he => by
      rcases h with h | ⟨_, t⟩
      · exact absurd he (Nat.ne_of_lt h)
      · exact t)

theorem iter_gap {last : ℚ} {it : LoopIter} (h : IterOk last it) :
    last + rate_limit_seconds ≤ it.tDispatch := by
  obtain ⟨h1, h2⟩ := h
  unfold wait_time rate_limit_seconds at *
  by_cases hc : it.tCheck - last < 5
  · rw [if_pos hc] at h2
    linarith
  · rw [if_neg hc] at h2
    push_neg at hc
    linarith

theorem run_gaps : ∀ (run : List LoopIter) (last : ℚ), RunOk last run →
    GapsOk (run.map LoopIter.tDispatch) := by
  intro run
  induction run with
  | nil => intro last _; trivial
  | cons it rest ih =>
    intro last h
    obtain ⟨_, hrest⟩ := h
    match rest, hrest with
    | [], _ => trivial
    | it2 :: rest2, hrest =>
      refine ⟨iter_gap hrest.1, ?_⟩
      exact ih it.tDispatch hrest

/-- C2: in any execution of the dispatch loop, consecutive dispatch starts
(the `time.time()` values recorded into `last_processed_time` when items are
popped) are at least `rate_limit_seconds = 5` time units apart, whatever the
items' priorities: each iteration computes the remaining wait from the
previous recorded start and sleeps it out before popping. -/
theorem rate_limit_gap (last : ℚ) (run : List LoopIter) (h : RunOk last run) :
    GapsOk (run.map LoopIter.tDispatch) :=
  run_gaps run last h

/-- Witness for C2 at a concrete two-dispatch run: from `last = 0`, a check at
time 3 yields a wait of 2 and a dispatch at 5; a check at 6 yields a wait of 4
and a dispatch at 11; the recorded gap 11 - 5 ≥ 5. -/
theorem rate_limit_gap_witness :
    GapsOk (([⟨3, 5⟩, ⟨6, 11⟩] : List LoopIter).map LoopIter.tDispatch) :=
  rate_limit_gap 0 _ (by norm_num [RunOk, IterOk, wait_time, rate_limit_seconds])

theorem chunk3Fuel_nil (n : ℕ) : chunk3Fuel n [] = [] := by
  cases n <;> rfl

theorem chunk3Fuel_flatten : ∀ (n : ℕ) (l : List ℤ), l.length ≤ n →
    (chunk3Fuel n l).flatten = l := by
  intro n
  induction n with
  | zero =>
    intro l hl
    rw [Nat.le_zero, List.length_eq_zero] at hl
    subst hl; simp [chunk3Fuel]
  | succ n ih =>
    intro l hl
    match l with
    | [] => simp [chunk3Fuel]
    | x :: xs =>
      simp only [List.length_cons] at hl
      simp only [chunk3Fuel, List.flatten_cons]
      rw [ih ((x :: xs).drop 3)
        (by simp only [List.length_drop, List.length_cons]; omega)]
      exact List.take_append_drop 3 (x :: xs)

theorem chunk3Fuel_length : ∀ (n : ℕ) (l : List ℤ), l.length ≤ n →
    (chunk3Fuel n l).length = (l.length + 2) / 3 := by
  intro n
  induction n with
  | zero =>
    intro l hl
    rw [Nat.le_zero, List.length_eq_zero] at hl
    subst hl; simp [chunk3Fuel]
  | succ n ih =>
    intro l hl
    match l with
    | [] => simp [chunk3Fuel]
    | x :: xs =>
      simp only [List.length_cons] at hl
      simp only [chunk3Fuel, List.length_cons]
      rw [ih ((x :: xs).drop 3)
        (by simp only [List.length_drop, List.length_cons]; omega)]
      simp only [List.length_drop, List.length_cons]
      omega

theorem chunk3Fuel_mem : ∀ (n : ℕ) (l : List ℤ), l.length ≤ n →
    ∀ c ∈ chunk3Fuel n l, 1 ≤ c.length ∧ c.length ≤ 3 := by
  intro n
  induction n with
  | zero => intro l _ c hc; simp [chunk3Fuel] at hc
  | succ n ih =>
    intro l hl c hc
    match l with
    | [] => simp [chunk3Fuel] at hc
    | x :: xs =>
      simp only [List.length_cons] at hl
      simp only [chunk3Fuel, List.mem_cons] at hc
      rcases hc with rfl | hc
      · simp only [List.length_take, List.length_cons]
        omega
      · exact ih ((x :: xs).drop 3)
          (by simp only [List.length_drop, List.length_cons]; omega) c hc

theorem chunk3Fuel_ne_nil (n : ℕ) (x : ℤ) (xs : List ℤ) :
    chunk3Fuel (n + 1) (x :: xs) ≠ [] := by
  simp [chunk3Fuel]

theorem chunk3Fuel_dropLast : ∀ (n : ℕ) (l : List ℤ), l.length ≤ n →
    ∀ c ∈ (chunk3Fuel n l).dropLast, c.length = 3 := by
  intro n
  induction n with
  | zero => intro l _ c hc; simp [chunk3Fuel] at hc
  | succ n ih =>
    intro l hl c hc
    match l with
    | [] => simp [chunk3Fuel] at hc
    | x :: xs =>
      simp only [List.length_cons] at hl
      simp only [chunk3Fuel] at hc
      rcases hdrop : (x :: xs).drop 3 with _ | ⟨y, ys⟩
      · rw [hdrop, chunk3Fuel_nil] at hc
        simp at hc
      · rw [hdrop] at hc
        have hxslen : (y :: ys).length ≤ n := by
          have h3 := congrArg List.length hdrop
          simp only [List.length_drop, List.length_cons] at h3
          simp only [List.length_cons]
          omega
        have hne2 : chunk3Fuel n (y :: ys) ≠ [] := by
          rcases n with _ | m
          · simp only [List.length_cons] at hxslen; omega
          · exact chunk3Fuel_ne_nil m y ys
        rw [List.dropLast_cons_of_ne_nil hne2] at hc
        rcases List.mem_cons.mp hc with rfl | hc2
        · have hxlen : 3 < (x :: xs).length := by
            by_contra hcon
            push_neg at hcon
            rw [List.drop_eq_nil_of_le hcon] at hdrop
            exact List.noConfusion hdrop
          simp only [List.length_take, List.length_cons] at *
          omega
        · exact ih (y :: ys) hxslen c hc2

/-- C4: for every non-empty identifier list of length L, `add_batches`
produces exactly ⌈L/3⌉ batches; every batch except possibly the last holds
exactly 3 identifiers; every batch (in particular the last) holds between 1
and 3; and concatenating the batches' identifier lists in creation order
reproduces the original list. -/
theorem add_batches_split (l : List ℤ) (_h : l ≠ []) :
    (chunk3 l).length = (l.length + 2) / 3 ∧
    (∀ c ∈ (chunk3 l).dropLast, c.length = 3) ∧
    (∀ c ∈ chunk3 l, 1 ≤ c.length ∧ c.length ≤ 3) ∧
    (chunk3 l).flatten = l := by
  refine ⟨chunk3Fuel_length l.length l (le_refl _),
    chunk3Fuel_dropLast l.length l (le_refl _),
    chunk3Fuel_mem l.length l (le_refl _),
    chunk3Fuel_flatten l.length l (le_refl _)⟩

/-- Witness for C4 at the spec's end-to-end example `ids = [1,2,3,4,5]`:
2 batches, the first of size 3, the last of size 2, concatenation exact. -/
theorem add_batches_split_witness :
    (chunk3 [1, 2, 3, 4, 5]).length = (5 + 2) / 3 ∧
    (chunk3 [1, 2, 3, 4, 5]).flatten = [1, 2, 3, 4, 5] := by
  have h := add_batches_split [1, 2, 3, 4, 5] (by decide)
  exact ⟨h.1, h.2.2.2⟩

theorem process_batch_writes_eq (ids : List ℤ) (failAt : Option ℕ) :
    process_batch_writes ids failAt =
      [BatchStatus.triggered, BatchStatus.completed] := by
  unfold process_batch_writes
  cases simulate_ids ids failAt <;> rfl

/-- C5: for every batch and every execution of `_process_batch` — including
the processing-failure path — every partial observation of the batch's status
history (initial `'yet_to_start'`, the spec's `pending`, followed by the
writes of `_process_batch`) is a prefix of
`[yet_to_start, triggered, completed]`: no transition is reversed and no
intermediate state is skipped. -/
theorem batch_status_monotonic (ids : List ℤ) (failAt : Option ℕ) (k : ℕ) :
    ∃ rest,
      (BatchStatus.yet_to_start :: process_batch_writes ids failAt).take k
          ++ rest
        = [BatchStatus.yet_to_start, BatchStatus.triggered,
           BatchStatus.completed] := by
  rw [process_batch_writes_eq]
  match k with
  | 0 =>
    exact ⟨[BatchStatus.yet_to_start, BatchStatus.triggered,
      BatchStatus.completed], rfl⟩
  | 1 => exact ⟨[BatchStatus.triggered, BatchStatus.completed], rfl⟩
  | 2 => exact ⟨[BatchStatus.completed], rfl⟩
  | n + 3 => exact ⟨[], by simp⟩

theorem simulate_ids_fails : ∀ (ids : List ℤ) (i : ℕ), i < ids.length →
    simulate_ids ids (some i) = Except.error () := by
  intro ids
  induction ids with
  | nil => intro i hi; simp at hi
  | cons x xs ih =>
    intro i hi
    match i with
    | 0 => rfl
    | j + 1 =>
      have hj : j < xs.length := by
        simp only [List.length_cons] at hi
        omega
      simp only [simulate_ids, Option.map_some']
      rw [Nat.add_sub_cancel, ih j hj]

/-- C7: for any queue contents and any assignment of simulated per-identifier
failures, every pushed item is still dispatched (the dispatched sequence is a
permutation of the queue — one task's failure never aborts the loop), every
processing task's last status write is `'completed'` (no distinct failed
state), and a failure oracle pointing inside the identifier list really makes
the simulated work raise. -/
theorem processing_failure_swallowed (queue : List QueueItem)
    (failOracle : String → Option ℕ) (ids : List ℤ) (i : ℕ)
    (h : i < ids.length) :
    List.Perm ((run_loop queue failOracle).map Prod.fst) queue ∧
    (∀ e ∈ run_loop queue failOracle,
      e.2.getLast? = some BatchStatus.completed) ∧
    simulate_ids ids (some i) = Except.error () := by
  refine ⟨?_, ?_, simulate_ids_fails ids i h⟩
  · have hmap : (run_loop queue failOracle).map Prod.fst = drain queue := by
      simp [run_loop, Function.comp_def]
    rw [hmap]
    exact drain_perm queue
  · intro e he
    simp only [run_loop, List.mem_map] at he
    obtain ⟨it, _, rfl⟩ := he
    rw [process_batch_writes_eq]
    rfl

/-- Witness for C7: with the single-item queue `[stuckItem]` and an oracle
failing at identifier index 0, the item is still dispatched and its task's
final write is `'completed'`; and `simulate_ids [5, 6] (some 1)` does
raise. -/
theorem processing_failure_swallowed_witness :
    List.Perm ((run_loop [stuckItem] (fun _ => some 0)).map Prod.fst)
      [stuckItem] ∧
    (∀ e ∈ run_loop [stuckItem] (fun _ => some 0),
      e.2.getLast? = some BatchStatus.completed) ∧
    simulate_ids [5, 6] (some 1) = Except.error () := by
  have h := processing_failure_swallowed [stuckItem] (fun _ => some 0)
    [5, 6] 1 (by decide)
  exact ⟨h.1, h.2.1, h.2.2⟩

theorem all_completed_iff (batches : List BatchRow) :
    (batches.map BatchRow.status).all (fun s => s = BatchStatus.completed)
        = true ↔
      ∀ b ∈ batches, b.status = BatchStatus.completed := by
  simp [List.all_map, List.all_eq_true, Function.comp_def]

theorem any_triggered_iff (batches : List BatchRow) :
    (batches.map BatchRow.status).any (fun s => s = BatchStatus.triggered)
        = true ↔
      ∃ b ∈ batches, b.status = BatchStatus.triggered := by
  simp [List.any_map, List.any_eq_true, Function.comp_def]

/-- C3: the `get_status` view returns `'completed'` iff the submission's
batch set is non-empty and every batch is `'completed'`; otherwise it returns
`'triggered'` iff some batch is `'triggered'`; otherwise `'yet_to_start'`;
and for a submission with zero batches it returns `'yet_to_start'` with an
empty batch list rather than an error. -/
theorem get_status_aggregate_correct (batches : List BatchRow) :
    ((get_status_view batches).1 = "completed" ↔
      batches ≠ [] ∧ ∀ b ∈ batches, b.status = BatchStatus.completed) ∧
    ((get_status_view batches).1 ≠ "completed" →
      ((get_status_view batches).1 = "triggered" ↔
        ∃ b ∈ batches, b.status = BatchStatus.triggered)) ∧
    ((get_status_view batches).1 ≠ "completed" →
      (get_status_view batches).1 ≠ "triggered" →
      (get_status_view batches).1 = "yet_to_start") ∧
    get_status_view [] = ("yet_to_start", []) := by
  refine ⟨?_, ?_, ?_, rfl⟩ <;>
  · match batches with
    | [] =>
      simp only [get_status_view, get_status_agg, List.map_nil,
        List.isEmpty_nil, if_true]
      first
      | (constructor
         · intro h; exact absurd h (by decide)
         · rintro ⟨h, _⟩; exact absurd rfl h)
      | (intro _
         constructor
         · intro h; exact absurd h (by decide)
         · rintro ⟨b, hb, _⟩; exact absurd hb (List.not_mem_nil b))
      | (intro _ _; trivial)
    | b :: bs =>
      by_cases hall2 : ((b :: bs).map BatchRow.status).all
          (fun s => s = BatchStatus.completed) = true
      · simp only [get_status_view, get_status_agg, List.map_cons,
          List.isEmpty_cons, Bool.false_eq_true, if_false]
        rw [List.map_cons] at hall2
        rw [if_pos hall2]
        first
        | (constructor
           · intro _
             exact ⟨List.cons_ne_nil b bs,
               (all_completed_iff (b :: bs)).mp (by rw [List.map_cons]; exact hall2)⟩
           · intro _; rfl)
        | (intro h; exact absurd rfl h)
      · by_cases hany2 : ((b :: bs).map BatchRow.status).any
            (fun s => s = BatchStatus.triggered) = true
        · simp only [get_status_view, get_status_agg, List.map_cons,
            List.isEmpty_cons, Bool.false_eq_true, if_false]
          rw [List.map_cons] at hall2 hany2
          rw [if_neg hall2, if_pos hany2]
          first
          | (constructor
             · intro h; exact absurd h (by decide)
             · rintro ⟨_, hsts⟩
               exact absurd ((all_completed_iff (b :: bs)).mpr hsts)
                 (by rw [List.map_cons]; exact hall2))
          | (intro _
             constructor
             · intro _
               exact (any_triggered_iff (b :: bs)).mp
                 (by rw [List.map_cons]; exact hany2)
             · intro _; rfl)
          | (intro _ h2; exact absurd rfl h2)
        · simp only [get_status_view, get_status_agg, List.map_cons,
            List.isEmpty_cons, Bool.false_eq_true, if_false]
          rw [List.map_cons] at hall2 hany2
          rw [if_neg hall2, if_neg hany2]
          first
          | (constructor
             · intro h; exact absurd h (by decide)
             · rintro ⟨_, hsts⟩
               exact absurd ((all_completed_iff (b :: bs)).mpr hsts)
                 (by rw [List.map_cons]; exact hall2))
          | (intro _
             constructor
             · intro h; exact absurd h (by decide)
             · intro hex
               exact absurd ((any_triggered_iff (b :: bs)).mpr hex)
                 (by rw [List.map_cons]; exact hany2))
          | (intro _ _; rfl)

/-- Witness for C3: a single triggered batch yields aggregate `'triggered'`,
obtained through the characterization theorem. -/
theorem get_status_aggregate_correct_witness :
    (get_status_view [⟨"b1", "r1", [1], BatchStatus.triggered⟩]).1
      = "triggered" := by
  have h := get_status_aggregate_correct [⟨"b1", "r1", [1], BatchStatus.triggered⟩]
  exact (h.2.1 (by decide)).mpr
    ⟨⟨"b1", "r1", [1], BatchStatus.triggered⟩, by simp, rfl⟩

/-- C10: the model-layer `IngestionRequest.status` property and the inline
aggregation in the `get_status` view compute the same aggregate status for
every collection of batch statuses. -/
theorem status_rule_refinement (statuses : List BatchStatus) :
    ingestion_request_status statuses = get_status_agg statuses := rfl

theorem serializer_valid_iff (ids : List ℤ) (p : String) :
    serializer_is_valid ids p = true ↔
      (ids ≠ [] ∧ ids.length ≤ 1000 ∧
        (∀ i ∈ ids, 1 ≤ i ∧ i ≤ 10 ^ 9 + 7) ∧
        (p = "HIGH" ∨ p = "MEDIUM" ∨ p = "LOW")) := by
  unfold serializer_is_valid valid_ids valid_priority ids_in_range
  simp only [Bool.and_eq_true, decide_eq_true_eq, List.all_eq_true]
  constructor
  · rintro ⟨⟨⟨h1, h2⟩, h3⟩, h4⟩
    refine ⟨?_, h2, h3, h4⟩
    intro he
    subst he
    simp at h1
  · rintro ⟨h1, h2, h3, h4⟩
    refine ⟨⟨⟨?_, h2⟩, h3⟩, h4⟩
    match ids, h1 with
    | x :: xs, _ => simp only [List.length_cons]; omega

theorem serializer_invalid_iff (ids : List ℤ) (p : String) :
    (!(serializer_is_valid ids p)) = true ↔
      (ids = [] ∨ 1000 < ids.length ∨
        (∃ i ∈ ids, i < 1 ∨ 10 ^ 9 + 7 < i) ∨
        ¬(p = "HIGH" ∨ p = "MEDIUM" ∨ p = "LOW")) := by
  rw [Bool.not_eq_true', Bool.eq_false_iff, Ne, serializer_valid_iff]
  constructor
  · intro hn
    by_cases h1 : ids = []
    · exact Or.inl h1
    by_cases h2 : ids.length ≤ 1000
    · by_cases h4 : p = "HIGH" ∨ p = "MEDIUM" ∨ p = "LOW"
      · have h3 : ¬ ∀ i ∈ ids, 1 ≤ i ∧ i ≤ 10 ^ 9 + 7 :=
          fun hc => hn ⟨h1, h2, hc, h4⟩
        push_neg at h3
        obtain ⟨i, hi, hir⟩ := h3
        rcases lt_or_le i 1 with hlt | hge
        · exact Or.inr (Or.inr (Or.inl ⟨i, hi, Or.inl hlt⟩))
        · exact Or.inr (Or.inr (Or.inl ⟨i, hi, Or.inr (hir hge)⟩))
      · exact Or.inr (Or.inr (Or.inr h4))
    · push_neg at h2
      exact Or.inr (Or.inl h2)
  · rintro (h1 | h2 | ⟨i, hi, hr⟩ | h4) ⟨c1, c2, c3, c4⟩
    · exact c1 h1
    · omega
    · have := c3 i hi
      omega
    · exact h4 c4

/-- C6: `ingest` answers 400 Bad Request exactly when the id list is empty,
longer than 1000, contains a value below 1 or above 10^9+7, or the priority
is not one of `'HIGH'`, `'MEDIUM'`, `'LOW'`; and whenever it does, the system
state is unchanged: no submission row, no batch row, no queue item. -/
theorem ingest_validation (s : SysState) (newReqId : String)
    (bids : ℕ → String) (ids : List ℤ) (priority : String) (t : ℚ) :
    ((ingest s newReqId bids ids priority t).1 = IngestResult.badRequest ↔
      (ids = [] ∨ 1000 < ids.length ∨
        (∃ i ∈ ids, i < 1 ∨ 10 ^ 9 + 7 < i) ∨
        ¬(priority = "HIGH" ∨ priority = "MEDIUM" ∨ priority = "LOW"))) ∧
    ((ingest s newReqId bids ids priority t).1 = IngestResult.badRequest →
      (ingest s newReqId bids ids priority t).2 = s) := by
  unfold ingest
  by_cases hv : (!(serializer_is_valid ids priority)) = true
  · rw [if_pos hv]
    exact ⟨⟨fun _ => (serializer_invalid_iff ids priority).mp hv,
      fun _ => rfl⟩, fun _ => rfl⟩
  · rw [if_neg hv]
    constructor
    · constructor
      · intro hc
        simp at hc
      · intro hd
        exact absurd ((serializer_invalid_iff ids priority).mpr hd) hv
    · intro hc
      simp at hc

/-- Witness for C6: submitting an empty id list is rejected with 400 and
leaves the empty system state untouched. -/
theorem ingest_validation_witness :
    (ingest ⟨[], [], []⟩ "r1" (fun _ => "b1") [] "HIGH" 0).1
        = IngestResult.badRequest ∧
    (ingest ⟨[], [], []⟩ "r1" (fun _ => "b1") [] "HIGH" 0).2 = ⟨[], [], []⟩ := by
  have h := ingest_validation ⟨[], [], []⟩ "r1" (fun _ => "b1") [] "HIGH" 0
  have hbad := h.1.mpr (Or.inl rfl)
  exact ⟨hbad, h.2 hbad⟩

theorem blocks_push_preceded (bids : ℕ → String) (iid : String) (pv : ℕ)
    (t : ℚ) :
    ∀ (ps : List (ℕ × List ℤ)) (j : ℕ) (q : QueueItem),
      (ps.flatMap (batch_block bids iid pv t))[j]?
          = some (SchedulerEvent.pushItem q) →
      ∃ b : BatchRow,
        SchedulerEvent.createBatch b ∈
          (ps.flatMap (batch_block bids iid pv t)).take j ∧
        b.batch_id = q.batch_id ∧ b.ids = q.ids ∧ b.ingestion_id = iid ∧
        b.status = BatchStatus.yet_to_start := by
  intro ps
  induction ps with
  | nil => intro j q h; simp at h
  | cons p rest ih =>
    intro j q h
    rw [List.flatMap_cons] at h
    match j with
    | 0 => simp [batch_block] at h
    | 1 =>
      simp only [batch_block, List.cons_append, List.nil_append,
        List.getElem?_cons_succ, List.getElem?_cons_zero,
        Option.some.injEq, SchedulerEvent.pushItem.injEq] at h
      refine ⟨⟨bids p.1, iid, p.2, BatchStatus.yet_to_start⟩, ?_, ?_, ?_,
        rfl, rfl⟩
      · rw [List.flatMap_cons]
        simp [batch_block]
      · rw [← h]
      · rw [← h]
    | j + 2 =>
      simp only [batch_block, List.cons_append, List.nil_append,
        List.getElem?_cons_succ] at h
      obtain ⟨b, hb, h1, h2, h3, h4⟩ := ih j q h
      refine ⟨b, ?_, h1, h2, h3, h4⟩
      rw [List.flatMap_cons]
      simp only [batch_block, List.cons_append, List.nil_append,
        List.take_succ_cons, List.mem_cons]
      exact Or.inr (Or.inr hb)

theorem foldl_blocks_state (bids : ℕ → String) (iid : String) (pv : ℕ)
    (t : ℚ) :
    ∀ (ps : List (ℕ × List ℤ)) (s : SysState),
      (ps.flatMap (batch_block bids iid pv t)).foldl apply_event s =
        ⟨s.db_requests,
         s.db_batches ++
           ps.map (fun p => ⟨bids p.1, iid, p.2, BatchStatus.yet_to_start⟩),
         s.queue ++ ps.map (fun p => ⟨pv, t, bids p.1, p.2, iid⟩)⟩ := by
  intro ps
  induction ps with
  | nil =>
    intro s
    rcases s with ⟨r, b, q⟩
    simp
  | cons p rest ih =>
    intro s
    rw [List.flatMap_cons, List.foldl_append]
    have hfold : (batch_block bids iid pv t p).foldl apply_event s =
        { s with
            db_batches :=
              s.db_batches ++ [⟨bids p.1, iid, p.2, BatchStatus.yet_to_start⟩],
            queue := s.queue ++ [⟨pv, t, bids p.1, p.2, iid⟩] } := rfl
    rw [hfold, ih]
    rcases s with ⟨r, b, q⟩
    simp

/-- C8: in the event trace of `add_batches`, every queue-item push is
preceded by the creation of the corresponding batch row, persisted with
status `'yet_to_start'` (the spec's `pending`, the first element of the
status domain); consequently, once `add_batches` returns, the store holds one
`'yet_to_start'` batch row per chunk of the submission, so a status query
arriving before dispatch sees all of the submission's batches. -/
theorem batch_persisted_before_push (s : SysState) (bids : ℕ → String)
    (iid : String) (ids : List ℤ) (priority : String) (t : ℚ) (j : ℕ)
    (q : QueueItem)
    (h : (add_batches_events bids iid ids priority t)[j]?
      = some (SchedulerEvent.pushItem q)) :
    (∃ b : BatchRow,
      SchedulerEvent.createBatch b ∈
        (add_batches_events bids iid ids priority t).take j ∧
      b.batch_id = q.batch_id ∧ b.ids = q.ids ∧ b.ingestion_id = iid ∧
      b.status = BatchStatus.yet_to_start) ∧
    (add_batches s bids iid ids priority t).db_batches =
      s.db_batches ++ (chunk3 ids).enum.map
        (fun p => ⟨bids p.1, iid, p.2, BatchStatus.yet_to_start⟩) := by
  constructor
  · exact blocks_push_preceded bids iid _ t (chunk3 ids).enum j q h
  · unfold add_batches add_batches_events
    rw [foldl_blocks_state]

/-- Witness for C8: submitting `[1]` with priority `'MEDIUM'` pushes
`stuckItem` at trace position 1, preceded by the creation of batch `"b1"`
in status `'yet_to_start'`, and the store ends with exactly that row. -/
theorem batch_persisted_before_push_witness :
    (∃ b : BatchRow,
      SchedulerEvent.createBatch b ∈
        (add_batches_events (fun _ => "b1") "r1" [1] "MEDIUM" 0).take 1 ∧
      b.batch_id = stuckItem.batch_id ∧ b.ids = stuckItem.ids ∧
      b.ingestion_id = "r1" ∧ b.status = BatchStatus.yet_to_start) ∧
    (add_batches ⟨[], [], []⟩ (fun _ => "b1") "r1" [1] "MEDIUM" 0).db_batches =
      [] ++ (chunk3 [1]).enum.map
        (fun p => ⟨(fun _ => "b1") p.1, "r1", p.2, BatchStatus.yet_to_start⟩) :=
  batch_persisted_before_push ⟨[], [], []⟩ (fun _ => "b1") "r1" [1] "MEDIUM" 0
    1 stuckItem (by rfl)

/-- C9: the race in the start/stop handoff, run concretely: the loop observes
an empty queue and flags itself not-running; before its thread dies, a
producer pushes `stuckItem` while `processing` is false, but
`start_processing` sees the old thread still alive and starts nothing; the
thread then dies.  The resulting state has a non-empty queue, `processing`
false, a dead worker, and no enabled loop action: the pushed item is stuck
with no active loop instance to drain it, contradicting the claimed
guarantee. -/
theorem dispatch_loop_handoff_race :
    sched_step SchedAct.exitEmpty ⟨[], true, WorkerPhase.running⟩
      = some ⟨[], false, WorkerPhase.exiting⟩ ∧
    sched_step (SchedAct.push stuckItem) ⟨[], false, WorkerPhase.exiting⟩
      = some ⟨[stuckItem], false, WorkerPhase.exiting⟩ ∧
    sched_step SchedAct.die ⟨[stuckItem], false, WorkerPhase.exiting⟩
      = some ⟨[stuckItem], false, WorkerPhase.dead⟩ ∧
    ([stuckItem] : List QueueItem) ≠ [] ∧
    sched_step SchedAct.exitEmpty ⟨[stuckItem], false, WorkerPhase.dead⟩
      = none ∧
    sched_step SchedAct.die ⟨[stuckItem], false, WorkerPhase.dead⟩ = none ∧
    sched_step SchedAct.popDispatch ⟨[stuckItem], false, WorkerPhase.dead⟩
      = none := by
  refine ⟨?_, ?_, ?_, ?_, ?_, ?_, ?_⟩ <;> decide
